import Mathlib

/-!
Verification of the alphabet table of `native_client/alphabet.cc` (DeepSpeech).

Strings from the C++ code are modelled as lists of byte values (`List Nat`),
`std::map`/`std::unordered_map` members as association lists where an
assignment `m[k] = v` overwrites the binding of `k` in place (or appends a
new binding), and fallible operations (deserialization, the abort-on-missing
lookups) return `Option`.
-/

/-- Lookup in an association list: the value of the first pair whose key matches. -/
def alookup {α β : Type} [DecidableEq α] : List (α × β) → α → Option β
  | [], _ => none
  | p :: tl, k => if p.1 = k then some p.2 else alookup tl k

/-- `m[k] = v` on a map modelled as an association list: overwrite the
binding of `k` in place, or append a new binding at the end. -/
def upsert {α β : Type} [DecidableEq α] : List (α × β) → α → β → List (α × β)
  | [], k, v => [(k, v)]
  | p :: tl, k, v => if p.1 = k then (k, v) :: tl else p :: upsert tl k v

/-- `utf8_to_codepoint` of alphabet.cc lines 8-35: decode one UTF-8 codepoint,
with length guards, returning 0 on malformed input. -/
def utf8_to_codepoint (cp : List Nat) : Nat :=
  if cp.length = 0 then 0
  else
    let s := fun i => cp.getD i 0
    if s 0 &&& 0x80 = 0 then s 0
    else if s 0 &&& 0xE0 = 0xC0 ∧ 2 ≤ cp.length then
      ((s 0 &&& 0x1F) <<< 6) ||| (s 1 &&& 0x3F)
    else if s 0 &&& 0xF0 = 0xE0 ∧ 3 ≤ cp.length then
      ((((s 0 &&& 0x0F) <<< 6) ||| (s 1 &&& 0x3F)) <<< 6) ||| (s 2 &&& 0x3F)
    else if s 0 &&& 0xF8 = 0xF0 ∧ 4 ≤ cp.length then
      ((((((s 0 &&& 0x07) <<< 6) ||| (s 1 &&& 0x3F)) <<< 6) ||| (s 2 &&& 0x3F)) <<< 6) ||| (s 3 &&& 0x3F)
    else 0

/-- The whitespace codepoint set of `is_unicode_space` (alphabet.cc lines 38-48). -/
def spaceCodes : List Nat :=
  [0x0009, 0x000A, 0x000B, 0x000C, 0x000D,
   0x0020, 0x0085, 0x00A0, 0x1680,
   0x2000, 0x2001, 0x2002, 0x2003, 0x2004, 0x2005,
   0x2006, 0x2007, 0x2008, 0x2009, 0x200A,
   0x2028, 0x2029, 0x202F, 0x205F, 0x3000]

/-- `is_unicode_space` of alphabet.cc lines 38-48. -/
def is_unicode_space (cp : List Nat) : Bool :=
  spaceCodes.contains (utf8_to_codepoint cp)

/-- Byte length of a UTF-8 codepoint as determined by its lead byte
(1-4 bytes; malformed lead bytes count as one byte). -/
def cpLen (b : Nat) : Nat :=
  if b &&& 0x80 = 0 then 1
  else if b &&& 0xE0 = 0xC0 then 2
  else if b &&& 0xF0 = 0xE0 then 3
  else if b &&& 0xF8 = 0xF0 then 4
  else 1

/-- Fuel-based recursion for `split_into_codepoints`; the fuel bounds the
number of chunks and is irrelevant whenever it is at least the input length. -/
def scpAux : Nat → List Nat → List (List Nat)
  | _, [] => []
  | 0, _ :: _ => []
  | fuel + 1, b :: rest =>
    (b :: rest.take (cpLen b - 1)) :: scpAux fuel (rest.drop (cpLen b - 1))

theorem scpAux_fuel : ∀ (f1 : Nat) (s : List Nat) (f2 : Nat),
    s.length ≤ f1 → s.length ≤ f2 → scpAux f1 s = scpAux f2 s := by
  intro f1
  induction f1 with
  | zero =>
    intro s f2 h1 _
    have : s = [] := List.eq_nil_of_length_eq_zero (Nat.le_zero.mp h1)
    subst this
    cases f2 <;> rfl
  | succ g1 ih =>
    intro s f2 h1 h2
    cases s with
    | nil => cases f2 <;> rfl
    | cons b rest =>
      cases f2 with
      | zero => simp at h2
      | succ g2 =>
        simp only [scpAux]
        have hlen : (rest.drop (cpLen b - 1)).length ≤ rest.length := by
          simp [List.length_drop]
        have hl : rest.length ≤ g1 := by simp at h1; omega
        have hl2 : rest.length ≤ g2 := by simp at h2; omega
        rw [ih (rest.drop (cpLen b - 1)) g2 (le_trans hlen hl) (le_trans hlen hl2)]

/-- Modelled from the spec: `split_into_codepoints` lives in
`ctcdecode/decoder_utils` which is not part of this source tree; the spec's
contract is "splits a UTF-8-encoded text string into an ordered sequence of
substrings, each exactly one Unicode codepoint, preserving byte content and
order, operating correctly on multi-byte sequences of length 1-4 bytes per
codepoint". Each chunk's length is taken from its lead byte. -/
def split_into_codepoints (s : List Nat) : List (List Nat) :=
  scpAux s.length s

theorem split_into_codepoints_nil : split_into_codepoints [] = [] := rfl

theorem split_into_codepoints_cons (b : Nat) (rest : List Nat) :
    split_into_codepoints (b :: rest) =
      (b :: rest.take (cpLen b - 1)) :: split_into_codepoints (rest.drop (cpLen b - 1)) := by
  simp only [split_into_codepoints, List.length_cons, scpAux]
  rw [scpAux_fuel rest.length (rest.drop (cpLen b - 1)) (rest.drop (cpLen b - 1)).length]
  · simp [List.length_drop]
  · exact le_refl _

/-- Concatenation of a list of byte strings. -/
def concatL : List (List Nat) → List Nat
  | [] => []
  | l :: tl => l ++ concatL tl

/-- One call of `getline_crossplatform` (alphabet.cc lines 52-83): consume
bytes up to and including a `\n`, `\r` or `\r\n` terminator (a `\r`
followed by `\n` is one terminator), or to end of stream.  Returns the line
(without terminator) and the unconsumed remainder of the stream. -/
def getline : List Nat → List Nat × List Nat
  | [] => ([], [])
  | c :: r =>
    if c = 10 then ([], r)
    else if c = 13 then
      if r.headD 0 = 10 then ([], r.tail) else ([], r)
    else
      let p := getline r
      (c :: p.1, p.2)

theorem getline_rest_length : ∀ s : List Nat, s ≠ [] → ((getline s).2).length < s.length := by
  intro s
  induction s with
  | nil => intro h; exact absurd rfl h
  | cons c r ih =>
    intro _
    have hg : getline (c :: r) =
        if c = 10 then ([], r)
        else if c = 13 then
          if r.headD 0 = 10 then ([], r.tail) else ([], r)
        else (c :: (getline r).1, (getline r).2) := rfl
    rw [hg]
    by_cases h10 : c = 10
    · rw [if_pos h10]; simp
    · rw [if_neg h10]
      by_cases h13 : c = 13
      · rw [if_pos h13]
        by_cases hd : r.headD 0 = 10
        · rw [if_pos hd]
          have ht : r.tail.length ≤ r.length := by cases r <;> simp
          simp only [List.length_cons]
          omega
        · rw [if_neg hd]; simp
      · rw [if_neg h13]
        simp only [List.length_cons]
        rcases eq_or_ne r [] with rfl | hne
        · simp [getline]
        · have := ih hne
          omega

/-- Fuel-based recursion for `processedLines`; the fuel bounds the number of
lines and is irrelevant whenever it is at least the stream length. -/
def plAux : Nat → List Nat → List (List Nat)
  | _, [] => [[]]
  | 0, _ :: _ => []
  | fuel + 1, c :: r => (getline (c :: r)).1 :: plAux fuel (getline (c :: r)).2

theorem plAux_fuel : ∀ (f1 : Nat) (s : List Nat) (f2 : Nat),
    s.length ≤ f1 → s.length ≤ f2 → plAux f1 s = plAux f2 s := by
  intro f1
  induction f1 with
  | zero =>
    intro s f2 h1 _
    have : s = [] := List.eq_nil_of_length_eq_zero (Nat.le_zero.mp h1)
    subst this
    cases f2 <;> rfl
  | succ g1 ih =>
    intro s f2 h1 h2
    cases s with
    | nil => cases f2 <;> rfl
    | cons c r =>
      cases f2 with
      | zero => simp at h2
      | succ g2 =>
        simp only [plAux]
        have hlt : ((getline (c :: r)).2).length < (c :: r).length :=
          getline_rest_length _ (by simp)
        simp only [List.length_cons] at hlt h1 h2
        rw [ih ((getline (c :: r)).2) g2 (by omega) (by omega)]

/-- The sequence of lines the `for (std::string line; getline_crossplatform(...);)`
loop of `Alphabet::init` processes.  The stream still converts to `true` on
the call that hits end-of-stream with an empty accumulator (only `eofbit` is
set, `failbit` comes from the next call's sentry), so the loop body runs one
final time with an empty line. -/
def processedLines (s : List Nat) : List (List Nat) :=
  plAux s.length s

theorem processedLines_nil : processedLines [] = [[]] := rfl

theorem processedLines_cons (s : List Nat) (h : s ≠ []) :
    processedLines s = (getline s).1 :: processedLines (getline s).2 := by
  cases s with
  | nil => exact absurd rfl h
  | cons c r =>
    simp only [processedLines, List.length_cons, plAux]
    have hlt : ((getline (c :: r)).2).length < (c :: r).length :=
      getline_rest_length _ (by simp)
    simp only [List.length_cons] at hlt
    rw [plAux_fuel r.length ((getline (c :: r)).2) ((getline (c :: r)).2).length (by omega) (le_refl _)]

/-- The table state of class `Alphabet`: entry count, space label, and the
two maps `label_to_str_` / `str_to_label_`. -/
structure Alphabet where
  size_ : Nat
  space_label_ : Int
  label_to_str_ : List (Nat × List Nat)
  str_to_label_ : List (List Nat × Nat)
deriving DecidableEq, Repr

/-- Modelled from the spec: the class declaration with its member defaults
(alphabet.h) is not part of this source tree; per the spec, a table starts
empty with `space_label` at the sentinel -2. -/
def defaultAlphabet : Alphabet :=
  { size_ := 0, space_label_ := -2, label_to_str_ := [], str_to_label_ := [] }

/-- The condition of alphabet.cc lines 100-101: the line splits into exactly
one codepoint and that codepoint is a Unicode whitespace codepoint. -/
def wsSingle (line : List Nat) : Prop :=
  (split_into_codepoints line).length = 1 ∧
  is_unicode_space ((split_into_codepoints line).getD 0 []) = true

instance (line : List Nat) : Decidable (wsSingle line) :=
  inferInstanceAs (Decidable ((split_into_codepoints line).length = 1 ∧
    is_unicode_space ((split_into_codepoints line).getD 0 []) = true))

/-- Body of one iteration of the `Alphabet::init` loop (alphabet.cc lines
100-109) after comment handling: whitespace detection, blank-line skip,
and insertion under the next label. -/
def initBody (st : Nat × Alphabet) (line : List Nat) : Nat × Alphabet :=
  let label := st.1
  let a := st.2
  let a1 := if wsSingle line then { a with space_label_ := (label : Int) } else a
  if line.length = 0 then (label, a1)
  else (label + 1,
        { a1 with label_to_str_ := upsert a1.label_to_str_ label line,
                  str_to_label_ := upsert a1.str_to_label_ line label })

/-- One iteration of the `Alphabet::init` loop (alphabet.cc lines 94-110):
the `\#` escape, the comment skip (`line[0]` of an empty `std::string`
reads the terminating NUL, i.e. 0), then the insertion body. -/
def initLine (st : Nat × Alphabet) (line : List Nat) : Nat × Alphabet :=
  if line.length = 2 ∧ line.getD 0 0 = 92 ∧ line.getD 1 0 = 35 then
    initBody st [35]
  else if line.getD 0 0 = 35 then st
  else initBody st line

/-- `Alphabet::init` (alphabet.cc lines 85-114) on an already-opened stream's
line sequence: fold the loop body from label 0 and a fresh table, then set
`size_` to the final label counter. -/
def initFromLines (lines : List (List Nat)) : Alphabet :=
  let st := lines.foldl initLine (0, defaultAlphabet)
  { st.2 with size_ := st.1 }

/-- `Alphabet::init` on a raw byte stream (the opened config file). -/
def buildFromStream (s : List Nat) : Alphabet :=
  initFromLines (processedLines s)

/-- The two little-endian bytes of a value written as `uint16_t`. -/
def le16 (n : Nat) : List Nat :=
  [n % 256, n / 256 % 256]

/-- Read a `uint16_t` little-endian from the head of a byte buffer. -/
def read16 (l : List Nat) : Nat :=
  l.getD 0 0 + 256 * l.getD 1 0

/-- The bytes `Alphabet::Serialize` writes for the map entries (alphabet.cc
lines 128-137): per entry the key as `uint16_t`, the value length as
`uint16_t`, then that many bytes of the value. -/
def entryBytes : List (Nat × List Nat) → List Nat
  | [] => []
  | p :: tl => le16 p.1 ++ le16 p.2.length ++ p.2.take (p.2.length % 65536) ++ entryBytes tl

/-- `Alphabet::Serialize` (alphabet.cc lines 116-140): the entry count as
`uint16_t` followed by the serialized entries in map order. -/
def Alphabet.Serialize (a : Alphabet) : List Nat :=
  le16 a.size_ ++ entryBytes a.label_to_str_

/-- The insertions one loop iteration of `Alphabet::Deserialize` performs
(alphabet.cc lines 173-178): update both maps, and set `space_label_` when
the decoded value is the single ASCII space. -/
def Alphabet.insertEntry (a : Alphabet) (label : Nat) (val : List Nat) : Alphabet :=
  { a with label_to_str_ := upsert a.label_to_str_ label val,
           str_to_label_ := upsert a.str_to_label_ val label,
           space_label_ := if val = [32] then (label : Int) else a.space_label_ }

/-- The entry loop of `Alphabet::Deserialize` (alphabet.cc lines 154-179):
for each of the declared entries, bounds-check and read the key, the value
length and the value, failing on any short read. -/
def deserializeLoop : Nat → List Nat → Alphabet → Option Alphabet
  | 0, _, a => some a
  | Nat.succ n, buf, a =>
    if buf.length < 2 then none
    else
      let label := read16 buf
      let buf1 := buf.drop 2
      if buf1.length < 2 then none
      else
        let val_len := read16 buf1
        let buf2 := buf1.drop 2
        if buf2.length < val_len then none
        else
          deserializeLoop n (buf2.drop val_len) (a.insertEntry label (buf2.take val_len))

/-- `Alphabet::Deserialize` (alphabet.cc lines 142-182): read the declared
count, set `size_` from it, then run the entry loop.  `some` is the
successful (return 0) case, `none` the failure (return 1) case. -/
def Alphabet.Deserialize (a : Alphabet) (buffer : List Nat) : Option Alphabet :=
  if buffer.length < 2 then none
  else
    let size := read16 buffer
    deserializeLoop size (buffer.drop 2) { a with size_ := size }

/-- The pure parsing skeleton of the `Deserialize` entry loop: the list of
(label, value) pairs it reads, with the same bounds checks. -/
def parseLoop : Nat → List Nat → Option (List (Nat × List Nat))
  | 0, _ => some []
  | Nat.succ n, buf =>
    if buf.length < 2 then none
    else
      let label := read16 buf
      let buf1 := buf.drop 2
      if buf1.length < 2 then none
      else
        let val_len := read16 buf1
        let buf2 := buf1.drop 2
        if buf2.length < val_len then none
        else
          (parseLoop n (buf2.drop val_len)).map (fun es => (label, buf2.take val_len) :: es)

/-- The (label, value) entries a buffer declares and `Deserialize` decodes. -/
def parsedEntries (buffer : List Nat) : Option (List (Nat × List Nat)) :=
  if buffer.length < 2 then none
  else parseLoop (read16 buffer) (buffer.drop 2)

/-- `Alphabet::CanEncodeSingle` (alphabet.cc lines 184-189). -/
def Alphabet.CanEncodeSingle (a : Alphabet) (input : List Nat) : Bool :=
  (alookup a.str_to_label_ input).isSome

/-- `Alphabet::CanEncode` (alphabet.cc lines 191-200). -/
def Alphabet.CanEncode (a : Alphabet) (input : List Nat) : Bool :=
  (split_into_codepoints input).all fun cp => a.CanEncodeSingle cp

/-- `Alphabet::DecodeSingle` (alphabet.cc lines 202-212); the abort on an
unknown label is modelled as `none`. -/
def Alphabet.DecodeSingle (a : Alphabet) (label : Nat) : Option (List Nat) :=
  alookup a.label_to_str_ label

/-- `Alphabet::EncodeSingle` (alphabet.cc lines 214-224); the abort on an
unknown string is modelled as `none`. -/
def Alphabet.EncodeSingle (a : Alphabet) (s : List Nat) : Option Nat :=
  alookup a.str_to_label_ s

/-- The concatenation loop of `Alphabet::Decode` (alphabet.cc lines 226-234),
aborting (`none`) as soon as a label is unknown. -/
def Alphabet.Decode (a : Alphabet) : List Nat → Option (List Nat)
  | [] => some []
  | l :: tl =>
    match a.DecodeSingle l, Alphabet.Decode a tl with
    | some s, some r => some (s ++ r)
    | _, _ => none

/-- Helper loop of `Alphabet::Encode`: encode a codepoint list one by one,
aborting (`none`) as soon as a codepoint is unknown. -/
def encodeCps (a : Alphabet) : List (List Nat) → Option (List Nat)
  | [] => some []
  | cp :: tl =>
    match a.EncodeSingle cp, encodeCps a tl with
    | some l, some r => some (l :: r)
    | _, _ => none

/-- `Alphabet::Encode` (alphabet.cc lines 246-254): split into codepoints and
encode each one. -/
def Alphabet.Encode (a : Alphabet) (input : List Nat) : Option (List Nat) :=
  encodeCps a (split_into_codepoints input)

/-- `UTF8Alphabet::CanEncodeSingle` (alphabet.cc lines 256-260). -/
def UTF8Alphabet.CanEncodeSingle (_a : Alphabet) (_input : List Nat) : Bool :=
  true

/-- `UTF8Alphabet::CanEncode` (alphabet.cc lines 262-266). -/
def UTF8Alphabet.CanEncode (_a : Alphabet) (_input : List Nat) : Bool :=
  true

/-- `UTF8Alphabet::Encode` (alphabet.cc lines 268-277): iterate the raw bytes
of the input and encode each one-byte string through `EncodeSingle`. -/
def UTF8Alphabet.Encode (a : Alphabet) : List Nat → Option (List Nat)
  | [] => some []
  | b :: tl =>
    match a.EncodeSingle [b], UTF8Alphabet.Encode a tl with
    | some l, some r => some (l :: r)
    | _, _ => none

/-! ### Association list lemmas -/

theorem alookup_upsert {α β : Type} [DecidableEq α] (m : List (α × β)) (k : α) (v : β) (k' : α) :
    alookup (upsert m k v) k' = if k = k' then some v else alookup m k' := by
  induction m with
  | nil => simp [upsert, alookup]
  | cons p tl ih =>
    by_cases hp : p.1 = k
    · simp only [upsert, hp, if_true]
      by_cases hk : k = k'
      · simp [alookup, hk]
      · simp [alookup, hk, hp]
    · simp only [upsert, hp, if_false]
      by_cases hp' : p.1 = k'
      · have : ¬ k = k' := by rintro rfl; exact hp hp'
        simp [alookup, hp', this]
      · simp [alookup, hp', ih]

theorem upsert_of_not_mem {α β : Type} [DecidableEq α] (m : List (α × β)) (k : α) (v : β)
    (h : k ∉ m.map Prod.fst) : upsert m k v = m ++ [(k, v)] := by
  induction m with
  | nil => rfl
  | cons p tl ih =>
    simp only [List.map_cons, List.mem_cons] at h
    push_neg at h
    have hp : ¬ p.1 = k := fun hh => h.1 hh.symm
    simp [upsert, hp, ih h.2]

theorem alookup_eq_some_iff_mem {α β : Type} [DecidableEq α] (m : List (α × β))
    (hnd : (m.map Prod.fst).Nodup) (k : α) (v : β) :
    alookup m k = some v ↔ (k, v) ∈ m := by
  induction m with
  | nil => simp [alookup]
  | cons p tl ih =>
    simp only [List.map_cons, List.nodup_cons] at hnd
    by_cases hp : p.1 = k
    · subst hp
      simp only [alookup, if_true, List.mem_cons]
      constructor
      · rintro h
        left
        cases p
        simp at h ⊢
        exact h.symm
      · rintro (h | h)
        · exact congrArg some (congrArg Prod.snd h).symm
        · exact absurd (List.mem_map_of_mem Prod.fst h) (by simpa using hnd.1)
    · simp only [alookup, hp, if_false, List.mem_cons]
      rw [ih hnd.2]
      constructor
      · exact fun h => Or.inr h
      · rintro (h | h)
        · exact absurd (congrArg Prod.fst h.symm) hp
        · exact h

theorem foldl_upsert_keys {α β : Type} [DecidableEq α] :
    ∀ (es : List (α × β)) (m : List (α × β)),
      (es.map Prod.fst).Nodup → (∀ p ∈ es, p.1 ∉ m.map Prod.fst) →
      es.foldl (fun acc p => upsert acc p.1 p.2) m = m ++ es := by
  intro es
  induction es with
  | nil => intro m _ _; simp
  | cons p tl ih =>
    intro m hnd hdis
    simp only [List.map_cons, List.nodup_cons] at hnd
    simp only [List.foldl_cons]
    rw [upsert_of_not_mem m p.1 p.2 (hdis p (by simp))]
    rw [ih (m ++ [(p.1, p.2)]) hnd.2]
    · simp
    · intro q hq
      simp only [List.map_append, List.mem_append]
      push_neg
      constructor
      · exact hdis q (List.mem_cons_of_mem _ hq)
      · simp only [List.map_cons, List.map_nil, List.mem_singleton]
        intro hq1
        exact hnd.1 (hq1 ▸ List.mem_map_of_mem Prod.fst hq)

theorem foldl_upsertV_vals {α β : Type} [DecidableEq β] :
    ∀ (es : List (α × β)) (m : List (β × α)),
      (es.map Prod.snd).Nodup → (∀ p ∈ es, p.2 ∉ m.map Prod.fst) →
      es.foldl (fun acc p => upsert acc p.2 p.1) m = m ++ es.map (fun p => (p.2, p.1)) := by
  intro es
  induction es with
  | nil => intro m _ _; simp
  | cons p tl ih =>
    intro m hnd hdis
    simp only [List.map_cons, List.nodup_cons] at hnd
    simp only [List.foldl_cons]
    rw [upsert_of_not_mem m p.2 p.1 (hdis p (by simp))]
    rw [ih (m ++ [(p.2, p.1)]) hnd.2]
    · simp
    · intro q hq
      simp only [List.map_append, List.mem_append]
      push_neg
      constructor
      · exact hdis q (List.mem_cons_of_mem _ hq)
      · simp only [List.map_cons, List.map_nil, List.mem_singleton]
        intro hq1
        exact hnd.1 (hq1 ▸ List.mem_map_of_mem Prod.snd hq)

theorem alookup_foldl_upsertV {α β : Type} [DecidableEq β] :
    ∀ (es : List (α × β)) (m : List (β × α)) (t : β) (l : α),
      alookup (es.foldl (fun acc p => upsert acc p.2 p.1) m) t = some l →
      (l, t) ∈ es ∨ alookup m t = some l := by
  intro es
  induction es with
  | nil => intro m t l h; exact Or.inr h
  | cons p tl ih =>
    intro m t l h
    simp only [List.foldl_cons] at h
    rcases ih (upsert m p.2 p.1) t l h with hmem | hup
    · exact Or.inl (List.mem_cons_of_mem _ hmem)
    · rw [alookup_upsert] at hup
      by_cases hp : p.2 = t
      · simp only [hp, if_true, Option.some.injEq] at hup
        left
        rw [← hup, ← hp]
        simp
      · simp only [hp, if_false] at hup
        exact Or.inr hup

/-! ### Codepoint splitting: concatenation identity -/

theorem concatL_split (s : List Nat) : concatL (split_into_codepoints s) = s := by
  have H : ∀ (n : Nat) (s : List Nat), s.length ≤ n → concatL (split_into_codepoints s) = s := by
    intro n
    induction n with
    | zero =>
      intro s h
      have : s = [] := List.eq_nil_of_length_eq_zero (Nat.le_zero.mp h)
      subst this
      rfl
    | succ m ih =>
      intro s h
      cases s with
      | nil => rfl
      | cons b rest =>
        rw [split_into_codepoints_cons]
        simp only [concatL]
        rw [ih (rest.drop (cpLen b - 1)) (by simp only [List.length_drop]; simp at h; omega)]
        simp [List.take_append_drop]
  exact H s.length s (le_refl _)

/-! ### Invariants of construction from a config source -/

/-- The `str_to_label_` map a sequence of insertions produces from the
`label_to_str_` entries, in insertion order. -/
def strOf (es : List (Nat × List Nat)) : List (List Nat × Nat) :=
  es.foldl (fun m p => upsert m p.2 p.1) []

/-- The `space_label_` value determined by a sequence of entries: the label
of the last entry whose token is the single ASCII space, starting from the
sentinel -2. -/
def spaceOf (es : List (Nat × List Nat)) : Int :=
  es.foldl (fun sp p => if p.2 = [32] then (p.1 : Int) else sp) (-2)

theorem strOf_append (es : List (Nat × List Nat)) (p : Nat × List Nat) :
    strOf (es ++ [p]) = upsert (strOf es) p.2 p.1 := by
  simp [strOf, List.foldl_append]

theorem spaceOf_append (es : List (Nat × List Nat)) (p : Nat × List Nat) :
    spaceOf (es ++ [p]) = if p.2 = [32] then (p.1 : Int) else spaceOf es := by
  simp [spaceOf, List.foldl_append]

/-- Normal form of one `initBody` step: each state field separately. -/
theorem initBody_cases (st : Nat × Alphabet) (line : List Nat) :
    initBody st line =
      (if line.length = 0 then st.1 else st.1 + 1,
       { size_ := st.2.size_,
         space_label_ := if wsSingle line then (st.1 : Int) else st.2.space_label_,
         label_to_str_ := if line.length = 0 then st.2.label_to_str_
                          else upsert st.2.label_to_str_ st.1 line,
         str_to_label_ := if line.length = 0 then st.2.str_to_label_
                          else upsert st.2.str_to_label_ line st.1 }) := by
  simp only [initBody]
  split_ifs <;> rfl

/-- Structural invariant of the `init` fold state: the keys of
`label_to_str_` are exactly the labels assigned so far, in order, and
`str_to_label_` is the corresponding fold of insertions. -/
def InitInv (st : Nat × Alphabet) : Prop :=
  st.2.label_to_str_.map Prod.fst = List.range st.1 ∧
  st.2.str_to_label_ = strOf st.2.label_to_str_

theorem initBody_inv (st : Nat × Alphabet) (line : List Nat) (h : InitInv st) :
    InitInv (initBody st line) := by
  obtain ⟨hk, hs⟩ := h
  rw [initBody_cases]
  by_cases hemp : line.length = 0
  · simp only [InitInv, hemp, if_true]
    exact ⟨hk, hs⟩
  · have hnot : st.1 ∉ st.2.label_to_str_.map Prod.fst := by
      rw [hk]
      simp
    simp only [InitInv, hemp, if_false]
    constructor
    · rw [upsert_of_not_mem _ _ _ hnot]
      simp only [List.map_append, hk, List.map_cons, List.map_nil]
      exact (List.range_succ st.1).symm
    · rw [upsert_of_not_mem _ _ _ hnot, hs, strOf_append]

theorem initLine_inv (st : Nat × Alphabet) (line : List Nat) (h : InitInv st) :
    InitInv (initLine st line) := by
  simp only [initLine]
  split_ifs with h1 h2
  · exact initBody_inv st [35] h
  · exact h
  · exact initBody_inv st line h

theorem foldl_initLine_inv (lines : List (List Nat)) :
    ∀ st : Nat × Alphabet, InitInv st → InitInv (lines.foldl initLine st) := by
  induction lines with
  | nil => intro st h; exact h
  | cons l tl ih =>
    intro st h
    exact ih (initLine st l) (initLine_inv st l h)

theorem build_inv (s : List Nat) :
    (buildFromStream s).label_to_str_.map Prod.fst = List.range (buildFromStream s).size_ ∧
    (buildFromStream s).str_to_label_ = strOf (buildFromStream s).label_to_str_ := by
  have h := foldl_initLine_inv (processedLines s) (0, defaultAlphabet)
    ⟨by simp [defaultAlphabet], by simp [defaultAlphabet, strOf]⟩
  obtain ⟨hk, hs⟩ := h
  exact ⟨hk, hs⟩

theorem initBody_space (st : Nat × Alphabet) (line : List Nat) (h : InitInv st)
    (hsp : st.2.space_label_ = spaceOf st.2.label_to_str_)
    (hws : wsSingle line → line = [32]) :
    (initBody st line).2.space_label_ = spaceOf (initBody st line).2.label_to_str_ := by
  obtain ⟨hk, _⟩ := h
  have hnot : st.1 ∉ st.2.label_to_str_.map Prod.fst := by
    rw [hk]
    simp
  rw [initBody_cases]
  by_cases hw : wsSingle line
  · have hl32 : line = [32] := hws hw
    subst hl32
    simp only [hw, if_true, if_pos]
    have hemp : ¬ ([32] : List Nat).length = 0 := by decide
    simp only [hemp, if_false]
    rw [upsert_of_not_mem _ _ _ hnot, spaceOf_append]
    simp
  · simp only [hw, if_false]
    by_cases hemp : line.length = 0
    · simp only [hemp, if_true]
      exact hsp
    · simp only [hemp, if_false]
      have hne : line ≠ [32] := by
        rintro rfl
        exact hw (by decide)
      rw [upsert_of_not_mem _ _ _ hnot, spaceOf_append, if_neg hne]
      exact hsp

theorem initLine_space (st : Nat × Alphabet) (line : List Nat) (h : InitInv st)
    (hsp : st.2.space_label_ = spaceOf st.2.label_to_str_)
    (hws : wsSingle line → line = [32]) :
    (initLine st line).2.space_label_ = spaceOf (initLine st line).2.label_to_str_ := by
  simp only [initLine]
  split_ifs with h1 h2
  · exact initBody_space st [35] h hsp (fun hc => absurd hc (by decide))
  · exact hsp
  · exact initBody_space st line h hsp hws

theorem foldl_initLine_space (lines : List (List Nat)) :
    ∀ st : Nat × Alphabet, InitInv st →
      st.2.space_label_ = spaceOf st.2.label_to_str_ →
      (∀ line ∈ lines, wsSingle line → line = [32]) →
      (lines.foldl initLine st).2.space_label_ = spaceOf (lines.foldl initLine st).2.label_to_str_ := by
  induction lines with
  | nil => intro st _ hsp _; exact hsp
  | cons l tl ih =>
    intro st h hsp hws
    exact ih (initLine st l) (initLine_inv st l h)
      (initLine_space st l h hsp (hws l (by simp)))
      (fun line hm => hws line (List.mem_cons_of_mem _ hm))

theorem build_space (s : List Nat)
    (h : ∀ line ∈ processedLines s, wsSingle line → line = [32]) :
    (buildFromStream s).space_label_ = spaceOf (buildFromStream s).label_to_str_ := by
  exact foldl_initLine_space (processedLines s) (0, defaultAlphabet)
    ⟨by simp [defaultAlphabet], by simp [defaultAlphabet, strOf]⟩
    (by simp [defaultAlphabet, spaceOf]) h

/-! ### Deserialization: refinement through `parseLoop` -/

theorem read16_le16_append (n : Nat) (r : List Nat) :
    read16 (le16 n ++ r) = n % 65536 := by
  show (n % 256 :: n / 256 % 256 :: r).getD 0 0 +
      256 * (n % 256 :: n / 256 % 256 :: r).getD 1 0 = n % 65536
  rw [List.getD_cons_zero, List.getD_cons_succ, List.getD_cons_zero]
  omega

theorem le16_append_drop (n : Nat) (r : List Nat) : (le16 n ++ r).drop 2 = r := rfl

theorem le16_append_length (n : Nat) (r : List Nat) :
    (le16 n ++ r).length = r.length + 2 := by
  simp [le16]

theorem deserializeLoop_eq_parseLoop :
    ∀ (n : Nat) (buf : List Nat) (a : Alphabet),
      deserializeLoop n buf a =
        (parseLoop n buf).map (fun es => es.foldl (fun x p => x.insertEntry p.1 p.2) a) := by
  intro n
  induction n with
  | zero => intro buf a; rfl
  | succ m ih =>
    intro buf a
    simp only [deserializeLoop, parseLoop]
    by_cases h1 : buf.length < 2
    · rw [if_pos h1, if_pos h1]
      rfl
    · rw [if_neg h1, if_neg h1]
      by_cases h2 : (buf.drop 2).length < 2
      · rw [if_pos h2, if_pos h2]
        rfl
      · rw [if_neg h2, if_neg h2]
        by_cases h3 : ((buf.drop 2).drop 2).length < read16 (buf.drop 2)
        · rw [if_pos h3, if_pos h3]
          rfl
        · rw [if_neg h3, if_neg h3]
          rw [ih]
          cases hp : parseLoop m (((buf.drop 2).drop 2).drop (read16 (buf.drop 2))) with
          | none => rfl
          | some es => rfl

theorem deserialize_eq_parsed (a : Alphabet) (buf : List Nat) :
    Alphabet.Deserialize a buf =
      (parsedEntries buf).map
        (fun es => es.foldl (fun x p => x.insertEntry p.1 p.2) { a with size_ := read16 buf }) := by
  simp only [Alphabet.Deserialize, parsedEntries]
  by_cases h : buf.length < 2
  · simp [h]
  · simp only [h, if_false]
    exact deserializeLoop_eq_parseLoop (read16 buf) (buf.drop 2) _

/-- Field-wise description of folding `insertEntry` over an entry list. -/
theorem foldl_insertEntry_fields :
    ∀ (es : List (Nat × List Nat)) (a : Alphabet),
      (es.foldl (fun x p => x.insertEntry p.1 p.2) a).size_ = a.size_ ∧
      (es.foldl (fun x p => x.insertEntry p.1 p.2) a).label_to_str_ =
        es.foldl (fun m p => upsert m p.1 p.2) a.label_to_str_ ∧
      (es.foldl (fun x p => x.insertEntry p.1 p.2) a).str_to_label_ =
        es.foldl (fun m p => upsert m p.2 p.1) a.str_to_label_ ∧
      (es.foldl (fun x p => x.insertEntry p.1 p.2) a).space_label_ =
        es.foldl (fun sp p => if p.2 = [32] then (p.1 : Int) else sp) a.space_label_ := by
  intro es
  induction es with
  | nil => intro a; exact ⟨rfl, rfl, rfl, rfl⟩
  | cons p tl ih =>
    intro a
    simp only [List.foldl_cons]
    exact ih (a.insertEntry p.1 p.2)

theorem parseLoop_entryBytes :
    ∀ (es : List (Nat × List Nat)),
      (∀ p ∈ es, p.1 < 65536 ∧ p.2.length < 65536) →
      parseLoop es.length (entryBytes es) = some es := by
  intro es
  induction es with
  | nil => intro _; rfl
  | cons p tl ih =>
    intro h
    obtain ⟨hk, hv⟩ := h p (by simp)
    have hmod : p.2.length % 65536 = p.2.length := Nat.mod_eq_of_lt hv
    have htake : p.2.take (p.2.length % 65536) = p.2 := by
      rw [hmod]
      simp
    have hE : entryBytes (p :: tl) =
        le16 p.1 ++ (le16 p.2.length ++ (p.2 ++ entryBytes tl)) := by
      simp only [entryBytes, htake, List.append_assoc]
    rw [List.length_cons, hE]
    simp only [parseLoop]
    have hc1 : ¬ ((le16 p.1 ++ (le16 p.2.length ++ (p.2 ++ entryBytes tl))).length < 2) := by
      rw [le16_append_length]
      omega
    rw [if_neg hc1, le16_append_drop]
    have hc2 : ¬ ((le16 p.2.length ++ (p.2 ++ entryBytes tl)).length < 2) := by
      rw [le16_append_length]
      omega
    rw [if_neg hc2, le16_append_drop]
    rw [read16_le16_append, read16_le16_append, hmod]
    have hc3 : ¬ ((p.2 ++ entryBytes tl).length < p.2.length) := by
      rw [List.length_append]
      omega
    rw [if_neg hc3, List.take_left, List.drop_left]
    rw [ih (fun q hq => h q (List.mem_cons_of_mem _ hq))]
    rw [Nat.mod_eq_of_lt hk]
    rfl

theorem parseLoop_take_none :
    ∀ (es : List (Nat × List Nat)) (m : Nat),
      m < (entryBytes es).length →
      parseLoop es.length ((entryBytes es).take m) = none := by
  intro es
  induction es with
  | nil =>
    intro m hm
    simp [entryBytes] at hm
  | cons p tl ih =>
    intro m hm
    have hA : (p.2.take (p.2.length % 65536)).length = p.2.length % 65536 := by
      rw [List.length_take]
      exact Nat.min_eq_left (Nat.mod_le _ _)
    have hE : entryBytes (p :: tl) =
        p.1 % 256 :: p.1 / 256 % 256 ::
          (le16 p.2.length ++ (p.2.take (p.2.length % 65536) ++ entryBytes tl)) := by
      simp [entryBytes, le16, List.append_assoc]
    have hlenE : (entryBytes (p :: tl)).length =
        4 + p.2.length % 65536 + (entryBytes tl).length := by
      rw [hE]
      have hl2 : (le16 p.2.length).length = 2 := rfl
      simp only [List.length_cons, List.length_append, hA, hl2]
      omega
    rw [hlenE] at hm
    rw [List.length_cons, hE]
    match m with
    | 0 =>
      simp [parseLoop]
    | 1 =>
      have ht1 : ((p.1 % 256 :: p.1 / 256 % 256 ::
          (le16 p.2.length ++ (p.2.take (p.2.length % 65536) ++ entryBytes tl))).take 1) =
          [p.1 % 256] := rfl
      rw [ht1]
      simp only [parseLoop]
      rw [if_pos (by simp)]
    | Nat.succ (Nat.succ m2) =>
      rw [List.take_succ_cons, List.take_succ_cons]
      simp only [parseLoop]
      have hc1 : ¬ ((p.1 % 256 :: p.1 / 256 % 256 ::
          (le16 p.2.length ++ (p.2.take (p.2.length % 65536) ++ entryBytes tl)).take m2).length < 2) := by
        simp only [List.length_cons]
        omega
      rw [if_neg hc1]
      have hdrop2 : (p.1 % 256 :: p.1 / 256 % 256 ::
          (le16 p.2.length ++ (p.2.take (p.2.length % 65536) ++ entryBytes tl)).take m2).drop 2 =
          (le16 p.2.length ++ (p.2.take (p.2.length % 65536) ++ entryBytes tl)).take m2 := rfl
      rw [hdrop2]
      match m2 with
      | 0 =>
        simp [parseLoop]
      | 1 =>
        have : (le16 p.2.length ++ (p.2.take (p.2.length % 65536) ++ entryBytes tl)).take 1 =
            [p.2.length % 256] := rfl
        rw [this]
        simp [parseLoop]
      | Nat.succ (Nat.succ m3) =>
        have hXcons : le16 p.2.length ++ (p.2.take (p.2.length % 65536) ++ entryBytes tl) =
            p.2.length % 256 :: p.2.length / 256 % 256 ::
              (p.2.take (p.2.length % 65536) ++ entryBytes tl) := rfl
        rw [hXcons, List.take_succ_cons, List.take_succ_cons]
        have hc2 : ¬ ((p.2.length % 256 :: p.2.length / 256 % 256 ::
            (p.2.take (p.2.length % 65536) ++ entryBytes tl).take m3).length < 2) := by
          simp only [List.length_cons]
          omega
        rw [if_neg hc2]
        have hdrop2b : (p.2.length % 256 :: p.2.length / 256 % 256 ::
            (p.2.take (p.2.length % 65536) ++ entryBytes tl).take m3).drop 2 =
            (p.2.take (p.2.length % 65536) ++ entryBytes tl).take m3 := rfl
        rw [hdrop2b]
        have hr16 : read16 (p.2.length % 256 :: p.2.length / 256 % 256 ::
            (p.2.take (p.2.length % 65536) ++ entryBytes tl).take m3) = p.2.length % 65536 := by
          show p.2.length % 256 + 256 * (p.2.length / 256 % 256) = p.2.length % 65536
          omega
        rw [hr16]
        by_cases hcase : m3 < p.2.length % 65536
        · have hlen : ((p.2.take (p.2.length % 65536) ++ entryBytes tl).take m3).length = m3 := by
            rw [List.length_take]
            refine Nat.min_eq_left ?_
            rw [List.length_append, hA]
            omega
          rw [if_pos (by rw [hlen]; exact hcase)]
        · push_neg at hcase
          have htakeA : (p.2.take (p.2.length % 65536) ++ entryBytes tl).take m3 =
              p.2.take (p.2.length % 65536) ++ (entryBytes tl).take (m3 - p.2.length % 65536) := by
            rw [List.take_append_eq_append_take]
            rw [List.take_of_length_le (by rw [hA]; exact hcase), hA]
          rw [htakeA]
          have hc3 : ¬ ((p.2.take (p.2.length % 65536) ++
              (entryBytes tl).take (m3 - p.2.length % 65536)).length < p.2.length % 65536) := by
            rw [List.length_append, hA]
            omega
          rw [if_neg hc3]
          have htakeL : (p.2.take (p.2.length % 65536) ++
              (entryBytes tl).take (m3 - p.2.length % 65536)).take (p.2.length % 65536) =
              p.2.take (p.2.length % 65536) := by
            have hx := List.take_left (p.2.take (p.2.length % 65536))
              ((entryBytes tl).take (m3 - p.2.length % 65536))
            rw [hA] at hx
            exact hx
          have hdropL : (p.2.take (p.2.length % 65536) ++
              (entryBytes tl).take (m3 - p.2.length % 65536)).drop (p.2.length % 65536) =
              (entryBytes tl).take (m3 - p.2.length % 65536) := by
            have hx := List.drop_left (p.2.take (p.2.length % 65536))
              ((entryBytes tl).take (m3 - p.2.length % 65536))
            rw [hA] at hx
            exact hx
          rw [hdropL]
          rw [ih (m3 - p.2.length % 65536) (by omega)]
          rfl

/-- C2: for every consistent table whose declared count fits in 16 bits,
deserializing any strict truncation of its serialization hits a bounds
check (every field is checked against the remaining length before being
read; the embedding reads only after these checks) and returns failure,
never success. -/
theorem C2_truncated_deserialize_fails (T a0 : Alphabet) (n : Nat)
    (hsz : T.size_ = T.label_to_str_.length) (hlt : T.size_ < 65536)
    (hn : n < T.Serialize.length) :
    Alphabet.Deserialize a0 (T.Serialize.take n) = none := by
  rw [deserialize_eq_parsed]
  suffices h : parsedEntries (T.Serialize.take n) = none by
    rw [h]
    rfl
  have hser : T.Serialize = le16 T.size_ ++ entryBytes T.label_to_str_ := rfl
  match n with
  | 0 =>
    simp [parsedEntries]
  | 1 =>
    rw [hser]
    have ht1 : (le16 T.size_ ++ entryBytes T.label_to_str_).take 1 = [T.size_ % 256] := rfl
    rw [ht1]
    simp [parsedEntries]
  | Nat.succ (Nat.succ n2) =>
    rw [hser]
    have htk : (le16 T.size_ ++ entryBytes T.label_to_str_).take (n2 + 2) =
        le16 T.size_ ++ (entryBytes T.label_to_str_).take n2 := rfl
    rw [htk]
    simp only [parsedEntries]
    have hc : ¬ ((le16 T.size_ ++ (entryBytes T.label_to_str_).take n2).length < 2) := by
      rw [le16_append_length]
      omega
    rw [if_neg hc, read16_le16_append, Nat.mod_eq_of_lt hlt, le16_append_drop]
    have hn2 : n2 < (entryBytes T.label_to_str_).length := by
      rw [hser, le16_append_length] at hn
      omega
    rw [hsz]
    exact parseLoop_take_none T.label_to_str_ n2 hn2

/-- C2 witness: a concrete truncated buffer is rejected. -/
theorem C2_witness :
    Alphabet.Deserialize defaultAlphabet ((buildFromStream [97, 10]).Serialize.take 3) = none :=
  C2_truncated_deserialize_fails (buildFromStream [97, 10]) defaultAlphabet 3
    (by decide) (by decide) (by decide)

/-- C1 counterexample: the table built from the single config line `"\t"`
(one tab character, a whitespace codepoint) serializes and deserializes
successfully, but the deserialized table's `space_label` is the sentinel -2
while the original table's `space_label` is 0, because `Deserialize` only
sets `space_label` for the literal one-byte token `" "`.  So the claim as
stated (round trip preserves `space_label` for every config-built table)
is false. -/
theorem C1_counterexample :
    (buildFromStream [9]).space_label_ = 0 ∧
    Alphabet.Deserialize defaultAlphabet ((buildFromStream [9]).Serialize) =
      some { size_ := 1, space_label_ := -2,
             label_to_str_ := [(0, [9])], str_to_label_ := [([9], 0)] } := by
  decide

/-- C1 (amended): for every table T built from a config source whose size
and token byte-lengths are below 2^16 and in which every config line that
is a single whitespace codepoint is exactly the ASCII space,
`Deserialize(Serialize(T))` succeeds and returns a table identical to T
(same `size`, same `space_label`, identical maps). -/
theorem C1_roundtrip (s : List Nat)
    (h1 : (buildFromStream s).size_ < 65536)
    (h2 : ∀ p ∈ (buildFromStream s).label_to_str_, p.2.length < 65536)
    (h3 : ∀ line ∈ processedLines s, wsSingle line → line = [32]) :
    Alphabet.Deserialize defaultAlphabet ((buildFromStream s).Serialize) =
      some (buildFromStream s) := by
  obtain ⟨hkeys, hstr⟩ := build_inv s
  have hsp := build_space s h3
  set T := buildFromStream s with hT
  have hlen : T.label_to_str_.length = T.size_ := by
    have hc := congrArg List.length hkeys
    simpa using hc
  have hkb : ∀ p ∈ T.label_to_str_, p.1 < 65536 ∧ p.2.length < 65536 := by
    intro p hp
    refine ⟨?_, h2 p hp⟩
    have hmem : p.1 ∈ T.label_to_str_.map Prod.fst := List.mem_map_of_mem Prod.fst hp
    rw [hkeys] at hmem
    have := List.mem_range.mp hmem
    omega
  rw [deserialize_eq_parsed]
  have hser : T.Serialize = le16 T.size_ ++ entryBytes T.label_to_str_ := rfl
  rw [hser]
  simp only [parsedEntries]
  have hc : ¬ ((le16 T.size_ ++ entryBytes T.label_to_str_).length < 2) := by
    rw [le16_append_length]
    omega
  have hparse : parseLoop T.size_ (entryBytes T.label_to_str_) = some T.label_to_str_ := by
    rw [← hlen]
    exact parseLoop_entryBytes T.label_to_str_ hkb
  rw [if_neg hc, read16_le16_append, Nat.mod_eq_of_lt h1, le16_append_drop, hparse]
  show some (T.label_to_str_.foldl (fun (x : Alphabet) p => x.insertEntry p.1 p.2)
    { defaultAlphabet with size_ := T.size_ }) = some T
  obtain ⟨hsize, hlab, hstr2, hspace⟩ :=
    foldl_insertEntry_fields T.label_to_str_ { defaultAlphabet with size_ := T.size_ }
  have hnodup : (T.label_to_str_.map Prod.fst).Nodup := by
    rw [hkeys]
    exact List.nodup_range T.size_
  have hlab2 : T.label_to_str_.foldl (fun m p => upsert m p.1 p.2)
      ([] : List (Nat × List Nat)) = T.label_to_str_ := by
    have hf := foldl_upsert_keys T.label_to_str_ [] hnodup (by intro p _; simp)
    simpa using hf
  congr 1
  have heta : ∀ x : Alphabet, x = ⟨x.size_, x.space_label_, x.label_to_str_, x.str_to_label_⟩ :=
    fun _ => rfl
  rw [heta (T.label_to_str_.foldl (fun (x : Alphabet) p => x.insertEntry p.1 p.2)
    { defaultAlphabet with size_ := T.size_ }), heta T]
  rw [hsize, hlab, hstr2, hspace]
  simp only [Alphabet.mk.injEq]
  refine ⟨trivial, ?_, ?_, ?_⟩
  · exact hsp.symm
  · exact hlab2
  · exact hstr.symm

/-- C1 witness: the amended round trip at a concrete config (`"a"`, `" "`). -/
theorem C1_witness :
    Alphabet.Deserialize defaultAlphabet ((buildFromStream [97, 10, 32, 10]).Serialize) =
      some (buildFromStream [97, 10, 32, 10]) :=
  C1_roundtrip [97, 10, 32, 10] (by decide) (by decide) (by decide)

/-! ### Bijection between the two maps -/

theorem map_fst_swap (es : List (Nat × List Nat)) :
    (es.map (fun p => (p.2, p.1))).map Prod.fst = es.map Prod.snd := by
  simp [List.map_map]

theorem alookup_swap_iff (es : List (Nat × List Nat))
    (hk : (es.map Prod.fst).Nodup) (hv : (es.map Prod.snd).Nodup) (l : Nat) (t : List Nat) :
    alookup es l = some t ↔ alookup (es.map (fun p => (p.2, p.1))) t = some l := by
  rw [alookup_eq_some_iff_mem es hk l t,
    alookup_eq_some_iff_mem (es.map (fun p => (p.2, p.1))) (by rw [map_fst_swap]; exact hv) t l]
  constructor
  · intro h
    exact List.mem_map_of_mem (fun p => (p.2, p.1)) h
  · intro h
    obtain ⟨p, hp, hpe⟩ := List.mem_map.mp h
    have h2 : p.2 = t := congrArg Prod.fst hpe
    have h1 : p.1 = l := congrArg Prod.snd hpe
    have : p = (l, t) := by
      cases p
      simp at h1 h2
      simp [h1, h2]
    rw [← this]
    exact hp

/-- C3 counterexample: the config `"a\na\n"` (the same line twice) produces
the pair (label 0, token "a") in `label_to_str_`, yet `EncodeSingle "a"`
returns label 1, not 0 — the maps are not mutual inverses for every present
pair, so the claim as stated is false. -/
theorem C3_counterexample :
    alookup (buildFromStream [97, 10, 97, 10]).label_to_str_ 0 = some [97] ∧
    Alphabet.EncodeSingle (buildFromStream [97, 10, 97, 10]) [97] = some 1 := by
  decide

/-- C3 (amended): the token-to-label and label-to-token maps are mutual
inverses — `DecodeSingle l = some t ↔ EncodeSingle t = some l` — for every
table built from a config source whose inserted tokens are pairwise
distinct, and for every table deserialized (into a fresh table) from a
buffer whose entries carry pairwise-distinct labels and pairwise-distinct
tokens.  Duplicate tokens in a config, or duplicate labels/tokens in a
buffer, break the bijection (see the counterexample). -/
theorem C3_maps_inverse :
    (∀ s : List Nat,
       ((buildFromStream s).label_to_str_.map Prod.snd).Nodup →
       ∀ (l : Nat) (t : List Nat),
         Alphabet.DecodeSingle (buildFromStream s) l = some t ↔
         Alphabet.EncodeSingle (buildFromStream s) t = some l) ∧
    (∀ (buf : List Nat) (es : List (Nat × List Nat)) (a2 : Alphabet),
       parsedEntries buf = some es →
       (es.map Prod.fst).Nodup → (es.map Prod.snd).Nodup →
       Alphabet.Deserialize defaultAlphabet buf = some a2 →
       ∀ (l : Nat) (t : List Nat),
         Alphabet.DecodeSingle a2 l = some t ↔ Alphabet.EncodeSingle a2 t = some l) := by
  constructor
  · intro s hv l t
    obtain ⟨hkeys, hstr⟩ := build_inv s
    have hk : ((buildFromStream s).label_to_str_.map Prod.fst).Nodup := by
      rw [hkeys]
      exact List.nodup_range _
    have hswap : strOf (buildFromStream s).label_to_str_ =
        (buildFromStream s).label_to_str_.map (fun p => (p.2, p.1)) := by
      have hf := foldl_upsertV_vals (buildFromStream s).label_to_str_ [] hv (by intro p _; simp)
      simpa [strOf] using hf
    show alookup (buildFromStream s).label_to_str_ l = some t ↔
      alookup (buildFromStream s).str_to_label_ t = some l
    rw [hstr, hswap]
    exact alookup_swap_iff _ hk hv l t
  · intro buf es a2 hp hk hv hd l t
    rw [deserialize_eq_parsed, hp] at hd
    have ha2 : a2 = es.foldl (fun (x : Alphabet) p => x.insertEntry p.1 p.2)
        { defaultAlphabet with size_ := read16 buf } := by
      exact (Option.some.injEq _ _ ▸ hd :
        (es.foldl (fun (x : Alphabet) p => x.insertEntry p.1 p.2)
          { defaultAlphabet with size_ := read16 buf }) = a2).symm
    obtain ⟨hsize, hlab, hstr2, hspace⟩ :=
      foldl_insertEntry_fields es { defaultAlphabet with size_ := read16 buf }
    have hlab2 : es.foldl (fun m p => upsert m p.1 p.2) ([] : List (Nat × List Nat)) = es := by
      have hf := foldl_upsert_keys es [] hk (by intro p _; simp)
      simpa using hf
    have hstr3 : es.foldl (fun m p => upsert m p.2 p.1) ([] : List (List Nat × Nat)) =
        es.map (fun p => (p.2, p.1)) := by
      have hf := foldl_upsertV_vals es [] hv (by intro p _; simp)
      simpa using hf
    show alookup a2.label_to_str_ l = some t ↔ alookup a2.str_to_label_ t = some l
    rw [ha2, hlab, hstr2]
    have e1 : es.foldl (fun m p => upsert m p.1 p.2)
        ({ defaultAlphabet with size_ := read16 buf } : Alphabet).label_to_str_ = es := hlab2
    have e2 : es.foldl (fun m p => upsert m p.2 p.1)
        ({ defaultAlphabet with size_ := read16 buf } : Alphabet).str_to_label_ =
        es.map (fun p => (p.2, p.1)) := hstr3
    rw [e1, e2]
    exact alookup_swap_iff es hk hv l t

/-- C3 witness: the inverse property at the concrete config `"a\nb\n"`. -/
theorem C3_witness :
    Alphabet.EncodeSingle (buildFromStream [97, 10, 98, 10]) [97] = some 0 :=
  (C3_maps_inverse.1 [97, 10, 98, 10] (by decide) 0 [97]).mp (by decide)

/-! ### Byte alphabet (UTF8Alphabet) -/

theorem utf8Encode_some_length (a : Alphabet) :
    ∀ s : List Nat, (∀ b ∈ s, (Alphabet.EncodeSingle a [b]).isSome = true) →
      (UTF8Alphabet.Encode a s).map List.length = some s.length := by
  intro s
  induction s with
  | nil => intro _; rfl
  | cons b tl ih =>
    intro h
    obtain ⟨l, hl⟩ := Option.isSome_iff_exists.mp (h b (by simp))
    have htl := ih (fun c hc => h c (List.mem_cons_of_mem _ hc))
    simp only [UTF8Alphabet.Encode]
    rw [hl]
    cases he : UTF8Alphabet.Encode a tl with
    | none =>
      rw [he] at htl
      simp at htl
    | some r =>
      rw [he] at htl
      simp at htl
      simp [List.length_cons, htl]

/-- C4 counterexample: over an empty base table, `CanEncode` still reports
true for the one-byte string `"a"`, but `Encode` hits the fatal missing
lookup (modelled as `none`) instead of producing a one-element label
sequence — so universality of `Encode` over arbitrary base table contents
is false. -/
theorem C4_counterexample :
    UTF8Alphabet.CanEncode defaultAlphabet [97] = true ∧
    UTF8Alphabet.Encode defaultAlphabet [97] = none := by
  decide

/-- C4 (amended): for a Byte Alphabet over any base table, `CanEncode` and
`CanEncodeSingle` return true for every input string; and whenever every
byte of the input is present as a one-byte token (so that no `EncodeSingle`
lookup aborts), `Encode` produces exactly one label per input byte. -/
theorem C4_byte_alphabet (a : Alphabet) (s : List Nat)
    (h : ∀ b ∈ s, (Alphabet.EncodeSingle a [b]).isSome = true) :
    UTF8Alphabet.CanEncode a s = true ∧ UTF8Alphabet.CanEncodeSingle a s = true ∧
    (UTF8Alphabet.Encode a s).map List.length = some s.length :=
  ⟨rfl, rfl, utf8Encode_some_length a s h⟩

/-- C4 witness: byte-level encoding of `"aa"` over the table built from
config `"a"` yields one label per byte. -/
theorem C4_witness :
    UTF8Alphabet.CanEncode (buildFromStream [97, 10]) [97, 97] = true ∧
    UTF8Alphabet.CanEncodeSingle (buildFromStream [97, 10]) [97, 97] = true ∧
    (UTF8Alphabet.Encode (buildFromStream [97, 10]) [97, 97]).map List.length = some 2 :=
  C4_byte_alphabet (buildFromStream [97, 10]) [97, 97] (by decide)

/-! ### Encode/decode round trip -/

theorem alookup_strOf_mem (es : List (Nat × List Nat)) (t : List Nat) (l : Nat)
    (h : alookup (strOf es) t = some l) : (l, t) ∈ es := by
  rcases alookup_foldl_upsertV es [] t l h with hm | hnone
  · exact hm
  · simp [alookup] at hnone

theorem encode_decode_chain (a : Alphabet)
    (hsec : ∀ (t : List Nat) (l : Nat),
      Alphabet.EncodeSingle a t = some l → Alphabet.DecodeSingle a l = some t) :
    ∀ cps : List (List Nat), (∀ cp ∈ cps, a.CanEncodeSingle cp = true) →
      ∃ ls, encodeCps a cps = some ls ∧ Alphabet.Decode a ls = some (concatL cps) := by
  intro cps
  induction cps with
  | nil => intro _; exact ⟨[], rfl, rfl⟩
  | cons cp tl ih =>
    intro h
    have hcp : (Alphabet.EncodeSingle a cp).isSome = true := h cp (by simp)
    obtain ⟨l, hl⟩ := Option.isSome_iff_exists.mp hcp
    obtain ⟨ls, hls, hdec⟩ := ih (fun c hc => h c (List.mem_cons_of_mem _ hc))
    refine ⟨l :: ls, ?_, ?_⟩
    · simp only [encodeCps]
      rw [hl, hls]
    · simp only [Alphabet.Decode]
      rw [hsec cp l hl, hdec]
      rfl

/-- The table the crafted duplicate-label buffer of the C5 counterexample
deserializes to. -/
def crafted5 : Alphabet :=
  { size_ := 2, space_label_ := -2, label_to_str_ := [(0, [98])],
    str_to_label_ := [([97], 0), ([98], 0)] }

/-- C5 counterexample: a crafted buffer with two entries under the same
label 0 — (0, "a") then (0, "b") — deserializes successfully into a table
where `CanEncode "a"` holds, yet `Decode(Encode("a"))` returns `"b"`, not
`"a"`.  So the claim as stated over every table is false. -/
theorem C5_counterexample :
    Alphabet.Deserialize defaultAlphabet [2, 0, 0, 0, 1, 0, 97, 0, 0, 1, 0, 98] =
      some crafted5 ∧
    Alphabet.CanEncode crafted5 [97] = true ∧
    (Alphabet.Encode crafted5 [97]).bind (Alphabet.Decode crafted5) = some [98] := by
  decide

/-- C5 (amended): in every table whose label-to-token map sends each
token's recorded label back to that token — true in particular of every
table built from a config source (first conjunct) — `Decode(Encode(text))
= text` for every text with `CanEncode(text)` (second conjunct).  Only
crafted buffers with duplicate labels violate the premise. -/
theorem C5_decode_encode :
    (∀ (s : List Nat) (t : List Nat) (l : Nat),
       Alphabet.EncodeSingle (buildFromStream s) t = some l →
       Alphabet.DecodeSingle (buildFromStream s) l = some t) ∧
    (∀ a : Alphabet,
       (∀ (t : List Nat) (l : Nat),
          Alphabet.EncodeSingle a t = some l → Alphabet.DecodeSingle a l = some t) →
       ∀ text : List Nat, Alphabet.CanEncode a text = true →
         (Alphabet.Encode a text).bind (Alphabet.Decode a) = some text) := by
  constructor
  · intro s t l h
    obtain ⟨hkeys, hstr⟩ := build_inv s
    have hk : ((buildFromStream s).label_to_str_.map Prod.fst).Nodup := by
      rw [hkeys]
      exact List.nodup_range _
    have hmem : (l, t) ∈ (buildFromStream s).label_to_str_ := by
      apply alookup_strOf_mem
      rw [← hstr]
      exact h
    show alookup (buildFromStream s).label_to_str_ l = some t
    exact (alookup_eq_some_iff_mem _ hk l t).mpr hmem
  · intro a hsec text hcan
    have hall : ∀ cp ∈ split_into_codepoints text, a.CanEncodeSingle cp = true := by
      intro cp hcp
      exact List.all_eq_true.mp hcan cp hcp
    obtain ⟨ls, hls, hdec⟩ := encode_decode_chain a hsec (split_into_codepoints text) hall
    show (encodeCps a (split_into_codepoints text)).bind (Alphabet.Decode a) = some text
    rw [hls]
    show Alphabet.Decode a ls = some text
    rw [hdec, concatL_split]

/-- C5 witness: `decode(encode("ab")) = "ab"` on the table from config
`"a\nb\n"`. -/
theorem C5_witness :
    (Alphabet.Encode (buildFromStream [97, 10, 98, 10]) [97, 98]).bind
      (Alphabet.Decode (buildFromStream [97, 10, 98, 10])) = some [97, 98] :=
  C5_decode_encode.2 (buildFromStream [97, 10, 98, 10])
    (C5_decode_encode.1 [97, 10, 98, 10]) [97, 98] (by decide)

/-! ### Comment and whitespace line handling during construction -/

theorem initLine_comment (st : Nat × Alphabet) (line : List Nat) (h : line.getD 0 0 = 35) :
    initLine st line = st := by
  simp only [initLine]
  have hno : ¬ (line.length = 2 ∧ line.getD 0 0 = 92 ∧ line.getD 1 0 = 35) := by
    rintro ⟨_, h92, _⟩
    rw [h] at h92
    exact absurd h92 (by decide)
  rw [if_neg hno, if_pos h]

/-- C6: during construction, any line whose first character is `#` (such a
line is never the escape line `\#`, whose first character is `\`)
contributes no table entry and consumes no label — inserting it anywhere in
the line sequence leaves the built table unchanged — while the exact
two-character line `\#` consumes exactly one label and contributes exactly
one entry whose token is the single character `#` (and leaves
`space_label` untouched). -/
theorem C6_comment_handling :
    (∀ (L1 L2 : List (List Nat)) (line : List Nat), line.getD 0 0 = 35 →
       initFromLines (L1 ++ line :: L2) = initFromLines (L1 ++ L2)) ∧
    (∀ st : Nat × Alphabet, initLine st [92, 35] =
       (st.1 + 1, { st.2 with label_to_str_ := upsert st.2.label_to_str_ st.1 [35],
                              str_to_label_ := upsert st.2.str_to_label_ [35] st.1 })) := by
  constructor
  · intro L1 L2 line h
    simp only [initFromLines, List.foldl_append, List.foldl_cons]
    rw [initLine_comment _ line h]
  · intro st
    have h1 : initLine st [92, 35] = initBody st [35] := by
      simp only [initLine]
      rw [if_pos ⟨rfl, rfl, rfl⟩]
    rw [h1, initBody_cases]
    have hlen : ¬ ([35] : List Nat).length = 0 := by decide
    have hws : ¬ wsSingle [35] := by decide
    rw [if_neg hlen, if_neg hws, if_neg hlen, if_neg hlen]

/-- C6 witness: a comment line in the middle of a config contributes
nothing, and the escape line adds the `#` entry. -/
theorem C6_witness :
    initFromLines [[97], [35, 104]] = initFromLines [[97]] ∧
    initLine (0, defaultAlphabet) [92, 35] =
      (1, { defaultAlphabet with
              label_to_str_ := upsert defaultAlphabet.label_to_str_ 0 [35],
              str_to_label_ := upsert defaultAlphabet.str_to_label_ [35] 0 }) :=
  ⟨C6_comment_handling.1 [[97]] [] [35, 104] rfl,
   C6_comment_handling.2 (0, defaultAlphabet)⟩

theorem initLine_space_unchanged (st : Nat × Alphabet) (line : List Nat) (h : ¬ wsSingle line) :
    (initLine st line).2.space_label_ = st.2.space_label_ := by
  simp only [initLine]
  split_ifs with h1 h2
  · rw [initBody_cases]
    show (if wsSingle [35] then (st.1 : Int) else st.2.space_label_) = st.2.space_label_
    rw [if_neg (show ¬ wsSingle [35] from by decide)]
  · rfl
  · rw [initBody_cases]
    show (if wsSingle line then (st.1 : Int) else st.2.space_label_) = st.2.space_label_
    rw [if_neg h]

theorem foldl_space_unchanged (lines : List (List Nat)) :
    ∀ st : Nat × Alphabet, (∀ l ∈ lines, ¬ wsSingle l) →
      (lines.foldl initLine st).2.space_label_ = st.2.space_label_ := by
  induction lines with
  | nil => intro st _; rfl
  | cons l tl ih =>
    intro st h
    rw [List.foldl_cons, ih (initLine st l) (fun q hq => h q (List.mem_cons_of_mem _ hq)),
      initLine_space_unchanged st l (h l (by simp))]

/-- C7: during construction, processing the line consisting of exactly one
ASCII space sets `space_label` to the label the line is assigned (first
conjunct, at the per-line step); and if no processed line consists of a
single whitespace codepoint, `space_label` after construction is the
sentinel -2, distinct from every valid (non-negative) label (second
conjunct). -/
theorem C7_space_label :
    (∀ st : Nat × Alphabet, initLine st [32] =
       (st.1 + 1, { st.2 with space_label_ := (st.1 : Int),
                              label_to_str_ := upsert st.2.label_to_str_ st.1 [32],
                              str_to_label_ := upsert st.2.str_to_label_ [32] st.1 })) ∧
    (∀ s : List Nat, (∀ line ∈ processedLines s, ¬ wsSingle line) →
       (buildFromStream s).space_label_ = -2) := by
  constructor
  · intro st
    have h1 : initLine st [32] = initBody st [32] := by
      simp only [initLine]
      rw [if_neg (by decide), if_neg (by decide)]
    rw [h1, initBody_cases]
    have hlen : ¬ ([32] : List Nat).length = 0 := by decide
    have hws : wsSingle [32] := by decide
    rw [if_neg hlen, if_pos hws, if_neg hlen, if_neg hlen]
  · intro s h
    show (List.foldl initLine (0, defaultAlphabet) (processedLines s)).2.space_label_ = -2
    rw [foldl_space_unchanged (processedLines s) (0, defaultAlphabet) h]
    rfl

/-- C7 witness: the single-space config line gets `space_label` = its
label; a config with no whitespace line keeps the sentinel. -/
theorem C7_witness :
    initLine (3, defaultAlphabet) [32] =
      (4, { defaultAlphabet with
              space_label_ := (3 : Int),
              label_to_str_ := upsert defaultAlphabet.label_to_str_ 3 [32],
              str_to_label_ := upsert defaultAlphabet.str_to_label_ [32] 3 }) ∧
    (buildFromStream [97, 10, 98, 10]).space_label_ = -2 :=
  ⟨C7_space_label.1 (3, defaultAlphabet), C7_space_label.2 [97, 10, 98, 10] (by decide)⟩

/-! ### Newline convention equivalence -/

/-- Join config lines, terminating every line with the byte sequence `t`. -/
def termJoin (t : List Nat) : List (List Nat) → List Nat
  | [] => []
  | l :: tl => l ++ t ++ termJoin t tl

theorem getline_append_lf (l r : List Nat) (h : ∀ c ∈ l, c ≠ 10 ∧ c ≠ 13) :
    getline (l ++ 10 :: r) = (l, r) := by
  induction l with
  | nil => simp [getline]
  | cons c cl ih =>
    obtain ⟨h10, h13⟩ := h c (by simp)
    have hg : getline (c :: (cl ++ 10 :: r)) =
        if c = 10 then ([], cl ++ 10 :: r)
        else if c = 13 then
          if (cl ++ 10 :: r).headD 0 = 10 then ([], (cl ++ 10 :: r).tail)
          else ([], cl ++ 10 :: r)
        else (c :: (getline (cl ++ 10 :: r)).1, (getline (cl ++ 10 :: r)).2) := rfl
    rw [List.cons_append, hg, if_neg h10, if_neg h13,
      ih (fun d hd => h d (List.mem_cons_of_mem _ hd))]

theorem getline_append_cr (l r : List Nat) (h : ∀ c ∈ l, c ≠ 10 ∧ c ≠ 13)
    (hr : r.headD 0 ≠ 10) :
    getline (l ++ 13 :: r) = (l, r) := by
  induction l with
  | nil =>
    show getline (13 :: r) = ([], r)
    have hg : getline (13 :: r) =
        if (13 : Nat) = 10 then ([], r)
        else if (13 : Nat) = 13 then
          if r.headD 0 = 10 then ([], r.tail) else ([], r)
        else (13 :: (getline r).1, (getline r).2) := rfl
    rw [hg, if_neg (by decide), if_pos rfl, if_neg hr]
  | cons c cl ih =>
    obtain ⟨h10, h13⟩ := h c (by simp)
    have hg : getline (c :: (cl ++ 13 :: r)) =
        if c = 10 then ([], cl ++ 13 :: r)
        else if c = 13 then
          if (cl ++ 13 :: r).headD 0 = 10 then ([], (cl ++ 13 :: r).tail)
          else ([], cl ++ 13 :: r)
        else (c :: (getline (cl ++ 13 :: r)).1, (getline (cl ++ 13 :: r)).2) := rfl
    rw [List.cons_append, hg, if_neg h10, if_neg h13,
      ih (fun d hd => h d (List.mem_cons_of_mem _ hd))]

theorem getline_append_crlf (l r : List Nat) (h : ∀ c ∈ l, c ≠ 10 ∧ c ≠ 13) :
    getline (l ++ 13 :: 10 :: r) = (l, r) := by
  induction l with
  | nil => simp [getline]
  | cons c cl ih =>
    obtain ⟨h10, h13⟩ := h c (by simp)
    have hg : getline (c :: (cl ++ 13 :: 10 :: r)) =
        if c = 10 then ([], cl ++ 13 :: 10 :: r)
        else if c = 13 then
          if (cl ++ 13 :: 10 :: r).headD 0 = 10 then ([], (cl ++ 13 :: 10 :: r).tail)
          else ([], cl ++ 13 :: 10 :: r)
        else (c :: (getline (cl ++ 13 :: 10 :: r)).1, (getline (cl ++ 13 :: 10 :: r)).2) := rfl
    rw [List.cons_append, hg, if_neg h10, if_neg h13,
      ih (fun d hd => h d (List.mem_cons_of_mem _ hd))]

theorem termJoin_cr_head (L : List (List Nat)) (h : ∀ l ∈ L, ∀ c ∈ l, c ≠ 10 ∧ c ≠ 13) :
    (termJoin [13] L).headD 0 ≠ 10 := by
  cases L with
  | nil => simp [termJoin]
  | cons l tl =>
    cases l with
    | nil => simp [termJoin]
    | cons c cl =>
      have hc := (h (c :: cl) (by simp) c (by simp)).1
      simp [termJoin, hc]

theorem pl_lf (L : List (List Nat)) (h : ∀ l ∈ L, ∀ c ∈ l, c ≠ 10 ∧ c ≠ 13) :
    processedLines (termJoin [10] L) = L ++ [[]] := by
  induction L with
  | nil => rfl
  | cons l tl ih =>
    have hstream : termJoin [10] (l :: tl) = l ++ 10 :: termJoin [10] tl := by
      simp [termJoin]
    rw [hstream, processedLines_cons _ (by simp),
      getline_append_lf l _ (h l (by simp))]
    show l :: processedLines (termJoin [10] tl) = (l :: tl) ++ [[]]
    rw [ih (fun q hq => h q (List.mem_cons_of_mem _ hq))]
    rfl

theorem pl_cr (L : List (List Nat)) (h : ∀ l ∈ L, ∀ c ∈ l, c ≠ 10 ∧ c ≠ 13) :
    processedLines (termJoin [13] L) = L ++ [[]] := by
  induction L with
  | nil => rfl
  | cons l tl ih =>
    have hstream : termJoin [13] (l :: tl) = l ++ 13 :: termJoin [13] tl := by
      simp [termJoin]
    rw [hstream, processedLines_cons _ (by simp),
      getline_append_cr l _ (h l (by simp))
        (termJoin_cr_head tl (fun q hq => h q (List.mem_cons_of_mem _ hq)))]
    show l :: processedLines (termJoin [13] tl) = (l :: tl) ++ [[]]
    rw [ih (fun q hq => h q (List.mem_cons_of_mem _ hq))]
    rfl

theorem pl_crlf (L : List (List Nat)) (h : ∀ l ∈ L, ∀ c ∈ l, c ≠ 10 ∧ c ≠ 13) :
    processedLines (termJoin [13, 10] L) = L ++ [[]] := by
  induction L with
  | nil => rfl
  | cons l tl ih =>
    have hstream : termJoin [13, 10] (l :: tl) = l ++ 13 :: 10 :: termJoin [13, 10] tl := by
      simp [termJoin]
    rw [hstream, processedLines_cons _ (by simp),
      getline_append_crlf l _ (h l (by simp))]
    show l :: processedLines (termJoin [13, 10] tl) = (l :: tl) ++ [[]]
    rw [ih (fun q hq => h q (List.mem_cons_of_mem _ hq))]
    rfl

/-- C8: terminating the same terminator-free config lines with `\n`, with
`\r`, or with `\r\n` yields byte streams that build identical tables
(identical in every field: size, space_label, and both maps). -/
theorem C8_newline_equivalence (L : List (List Nat))
    (h : ∀ l ∈ L, ∀ c ∈ l, c ≠ 10 ∧ c ≠ 13) :
    buildFromStream (termJoin [10] L) = buildFromStream (termJoin [13] L) ∧
    buildFromStream (termJoin [10] L) = buildFromStream (termJoin [13, 10] L) := by
  constructor
  · show initFromLines (processedLines (termJoin [10] L)) =
      initFromLines (processedLines (termJoin [13] L))
    rw [pl_lf L h, pl_cr L h]
  · show initFromLines (processedLines (termJoin [10] L)) =
      initFromLines (processedLines (termJoin [13, 10] L))
    rw [pl_lf L h, pl_crlf L h]

/-- C8 witness: the three terminator conventions agree on the concrete
config lines `"a"`, `" "`. -/
theorem C8_witness :
    buildFromStream (termJoin [10] [[97], [32]]) =
      buildFromStream (termJoin [13] [[97], [32]]) ∧
    buildFromStream (termJoin [10] [[97], [32]]) =
      buildFromStream (termJoin [13, 10] [[97], [32]]) :=
  C8_newline_equivalence [[97], [32]] (by decide)

/-! ### Deserialize: size and space_label behaviour -/

/-- C9: after a successful `Deserialize` the table's `size` equals the
16-bit count declared in the buffer header (first conjunct), not the number
of distinct entries actually inserted: a concrete buffer declaring two
entries under the same label deserializes to size 2 with a single
`label_to_str_` entry (second conjunct). -/
theorem C9_size_from_header :
    (∀ (a0 : Alphabet) (buf : List Nat) (a2 : Alphabet),
       Alphabet.Deserialize a0 buf = some a2 → a2.size_ = read16 buf) ∧
    (Alphabet.Deserialize defaultAlphabet [2, 0, 0, 0, 1, 0, 97, 0, 0, 1, 0, 98]).map
        (fun a => (a.size_, a.label_to_str_.length)) = some (2, 1) := by
  constructor
  · intro a0 buf a2 hd
    rw [deserialize_eq_parsed] at hd
    cases hp : parsedEntries buf with
    | none =>
      rw [hp] at hd
      simp at hd
    | some es =>
      rw [hp] at hd
      have ha2 : es.foldl (fun (x : Alphabet) p => x.insertEntry p.1 p.2)
          { a0 with size_ := read16 buf } = a2 := by
        simpa using hd
      rw [← ha2]
      obtain ⟨hsize, _, _, _⟩ :=
        foldl_insertEntry_fields es { a0 with size_ := read16 buf }
      exact hsize
  · decide

/-- C9 witness: the declared count of an empty buffer. -/
theorem C9_witness : defaultAlphabet.size_ = read16 [0, 0] :=
  C9_size_from_header.1 defaultAlphabet [0, 0] defaultAlphabet (by decide)

/-- C10: `Deserialize` modifies `space_label` only when some decoded token
is the single ASCII space: on a successful deserialize of a buffer none of
whose parsed entries carries the token `" "`, `space_label` retains exactly
the value it had before the call (in particular it is never reset to the
sentinel). -/
theorem C10_space_label_frame (a0 : Alphabet) (buf : List Nat)
    (es : List (Nat × List Nat)) (a2 : Alphabet)
    (hp : parsedEntries buf = some es) (hs : ∀ p ∈ es, p.2 ≠ [32])
    (hd : Alphabet.Deserialize a0 buf = some a2) :
    a2.space_label_ = a0.space_label_ := by
  rw [deserialize_eq_parsed, hp] at hd
  have ha2 : es.foldl (fun (x : Alphabet) p => x.insertEntry p.1 p.2)
      { a0 with size_ := read16 buf } = a2 := by
    simpa using hd
  obtain ⟨_, _, _, hspace⟩ :=
    foldl_insertEntry_fields es { a0 with size_ := read16 buf }
  rw [← ha2, hspace]
  have hgen : ∀ (es2 : List (Nat × List Nat)) (sp : Int), (∀ p ∈ es2, p.2 ≠ [32]) →
      es2.foldl (fun sp p => if p.2 = [32] then (p.1 : Int) else sp) sp = sp := by
    intro es2
    induction es2 with
    | nil => intro sp _; rfl
    | cons q tl ih =>
      intro sp hq
      rw [List.foldl_cons, if_neg (hq q (by simp))]
      exact ih sp (fun r hr => hq r (List.mem_cons_of_mem _ hr))
  exact hgen es _ hs

/-- C10 witness: deserializing the one-entry buffer with token `"a"` into a
table whose `space_label` is 7 leaves `space_label` at 7. -/
theorem C10_witness :
    (Alphabet.mk 1 7 [(0, [97])] [([97], 0)]).space_label_ =
      (Alphabet.mk 0 7 [] []).space_label_ :=
  C10_space_label_frame (Alphabet.mk 0 7 [] []) [1, 0, 0, 0, 1, 0, 97] [(0, [97])]
    (Alphabet.mk 1 7 [(0, [97])] [([97], 0)]) (by decide) (by decide) (by decide)
